import Mathlib

/-!
# Burst detection in the cognitive-warfare dashboard: a shallow embedding

This file embeds the burst-detection subsystem of the repository
(`src/utils/burst_detection.py` and `detect_bursts_in_timeline` in
`src/tabs/burstiness.py`) and proves/refutes the specification's claims
about it.

Modelling conventions:
* Python/pandas floats are modelled by exact arithmetic: counts, means and
  variances are rationals (`ℚ`), and the standard deviation, which involves a
  square root, lives in `ℝ` (`Real.sqrt` of the rational variance).
* pandas `rolling(window=w, center=True)` leaves `NaN` at positions whose
  centered window is not entirely in range (`min_periods` defaults to the
  window size).  A `NaN` threshold compares as `False`, so such positions are
  never flagged; this is modelled by the `fullWin` guard inside `isBurst`.
* A `try/except` that swallows every exception and returns an empty result is
  modelled by returning the empty list on the one input that actually raises
  (`sensitivity = 0`, a `ZeroDivisionError` in `2.0 / sensitivity`).
-/

namespace CogWar

/-- Arithmetic mean of a list of rationals (`Series.mean()`); division by zero
on the empty list yields `0` in `ℚ`, the empty case is never used with full
windows. -/
def listMean (l : List ℚ) : ℚ := l.sum / (l.length : ℚ)

/-- Sample variance with one delta degree of freedom, the square of pandas'
default `Series.std()` (`ddof = 1`). -/
def sampleVar (l : List ℚ) : ℚ :=
  (l.map (fun x => (x - listMean l) ^ 2)).sum / ((l.length : ℚ) - 1)

/-- Maximum of a list of rationals (`Series.max()` / `np.max`), `0` on the
empty list (the sources only apply it to nonempty data). -/
def listMax : List ℚ → ℚ
  | [] => 0
  | x :: xs => xs.foldl max x

/-- The centered rolling window of pandas `rolling(window=w, center=True)` at
position `i`: rows `i - (w-1)/2 … i + w/2` (integer division). -/
def window (xs : List ℚ) (w i : ℕ) : List ℚ :=
  (xs.drop (i - (w - 1) / 2)).take w

/-- The centered window at position `i` lies entirely inside a series of
length `n`; elsewhere pandas produces `NaN` (its `min_periods` defaults to the
full window size). -/
def fullWin (n w i : ℕ) : Prop := (w - 1) / 2 ≤ i ∧ i + w / 2 < n

instance (n w i : ℕ) : Decidable (fullWin n w i) :=
  inferInstanceAs (Decidable (_ ∧ _))

/-- Rolling mean at position `i` (meaningful only under `fullWin`). -/
def rollMean (xs : List ℚ) (w i : ℕ) : ℚ := listMean (window xs w i)

/-- Rolling sample variance at position `i`: the square of the code's
`rolling_std` (meaningful only under `fullWin`). -/
def rollVar (xs : List ℚ) (w i : ℕ) : ℚ := sampleVar (window xs w i)

/-- The burst test shared by both implementations
(`burstiness.py` line 350 and `burst_detection.py` line 40):
`count[i] > rolling_mean[i] + threshold_multiplier * rolling_std[i]`,
where a `NaN` row (partial window) compares as `False`. -/
def isBurst (xs : List ℚ) (w i : ℕ) (mult : ℚ) : Prop :=
  fullWin xs.length w i ∧
    ((rollMean xs w i : ℝ) + (mult : ℝ) * Real.sqrt ((rollVar xs w i : ℚ) : ℝ)
      < ((xs.getD i 0 : ℚ) : ℝ))

/-- Square-root-free decision procedure for the threshold comparison
`m + mult * sqrt v < c`; proven equivalent in `exceedsThr_iff`. -/
def exceedsThr (c m mult v : ℚ) : Bool :=
  if 0 ≤ mult then decide (m < c ∧ mult ^ 2 * v < (c - m) ^ 2)
  else decide (m < c ∨ (m - c) ^ 2 < mult ^ 2 * v)

theorem sampleVar_nonneg (l : List ℚ) : 0 ≤ sampleVar l := by
  cases l with
  | nil => simp [sampleVar]
  | cons x xs =>
      apply div_nonneg
      · apply List.sum_nonneg
        intro y hy
        simp only [List.mem_map] at hy
        obtain ⟨z, _, rfl⟩ := hy
        exact sq_nonneg _
      · have h1 : (1 : ℚ) ≤ ((x :: xs).length : ℚ) := by
          exact_mod_cast Nat.succ_le_of_lt (Nat.pos_of_ne_zero (by simp))
        linarith

theorem rollVar_nonneg (xs : List ℚ) (w i : ℕ) : 0 ≤ rollVar xs w i :=
  sampleVar_nonneg _

theorem exceedsThr_iff (c m mult v : ℚ) (hv : 0 ≤ v) :
    exceedsThr c m mult v = true ↔
      ((m : ℝ) + (mult : ℝ) * Real.sqrt ((v : ℚ) : ℝ) < ((c : ℚ) : ℝ)) := by
  have hvR : (0 : ℝ) ≤ (v : ℝ) := by exact_mod_cast hv
  set σ : ℝ := Real.sqrt ((v : ℚ) : ℝ) with hσ
  have hσ0 : 0 ≤ σ := Real.sqrt_nonneg _
  have hσsq : σ ^ 2 = (v : ℝ) := Real.sq_sqrt hvR
  unfold exceedsThr
  by_cases hm : 0 ≤ mult
  · have hmR : (0 : ℝ) ≤ (mult : ℝ) := by exact_mod_cast hm
    rw [if_pos hm, decide_eq_true_eq]
    constructor
    · rintro ⟨h1, h2⟩
      have h1R : (m : ℝ) < (c : ℝ) := by exact_mod_cast h1
      have h2R : ((mult : ℝ)) ^ 2 * (v : ℝ) < ((c : ℝ) - (m : ℝ)) ^ 2 := by
        exact_mod_cast h2
      have hms : ((mult : ℝ) * σ) ^ 2 < ((c : ℝ) - (m : ℝ)) ^ 2 := by
        rw [mul_pow, hσsq]; exact h2R
      have hlt : (mult : ℝ) * σ < (c : ℝ) - (m : ℝ) := by
        have := (pow_lt_pow_iff_left₀ (mul_nonneg hmR hσ0) (by linarith)
          (two_ne_zero)).mp hms
        exact this
      linarith
    · intro h
      have hms0 : (0 : ℝ) ≤ (mult : ℝ) * σ := mul_nonneg hmR hσ0
      have h1R : (m : ℝ) < (c : ℝ) := by nlinarith
      have hlt : (mult : ℝ) * σ < (c : ℝ) - (m : ℝ) := by linarith
      have hsq : ((mult : ℝ) * σ) ^ 2 < ((c : ℝ) - (m : ℝ)) ^ 2 :=
        (pow_lt_pow_iff_left₀ hms0 (by linarith) (two_ne_zero)).mpr hlt
      constructor
      · exact_mod_cast h1R
      · have : ((mult : ℝ)) ^ 2 * (v : ℝ) < ((c : ℝ) - (m : ℝ)) ^ 2 := by
          rw [← hσsq, ← mul_pow]; exact hsq
        exact_mod_cast this
  · push_neg at hm
    have hmR : ((mult : ℝ)) < 0 := by exact_mod_cast hm
    rw [if_neg (not_le.mpr hm), decide_eq_true_eq]
    rcases eq_or_lt_of_le hv with hv0 | hvpos
    · have hσz : σ = 0 := by
        rw [hσ]
        have : ((v : ℚ) : ℝ) = 0 := by exact_mod_cast hv0.symm
        rw [this, Real.sqrt_zero]
      constructor
      · rintro (h1 | h2)
        · have : (m : ℝ) < (c : ℝ) := by exact_mod_cast h1
          rw [hσz]; linarith
        · exfalso
          have hv0Q : v = 0 := hv0.symm
          rw [hv0Q] at h2
          simp at h2
          nlinarith [sq_nonneg (m - c), h2]
      · intro h
        left
        rw [hσz] at h
        have : (m : ℝ) < (c : ℝ) := by linarith
        exact_mod_cast this
    · have hσpos : 0 < σ := by
        rw [hσ]; apply Real.sqrt_pos.mpr; exact_mod_cast hvpos
      have hmσ : (mult : ℝ) * σ < 0 := mul_neg_of_neg_of_pos hmR hσpos
      constructor
      · rintro (h1 | h2)
        · have : (m : ℝ) < (c : ℝ) := by exact_mod_cast h1
          linarith
        · have h2R : ((m : ℝ) - (c : ℝ)) ^ 2 < ((mult : ℝ)) ^ 2 * (v : ℝ) := by
            exact_mod_cast h2
          by_cases hmc : (m : ℝ) < (c : ℝ)
          · linarith
          · push_neg at hmc
            have hneg : ((m : ℝ) - (c : ℝ)) ^ 2 < (-((mult : ℝ) * σ)) ^ 2 := by
              rw [neg_pow, mul_pow, hσsq]
              simpa using h2R
            have : (m : ℝ) - (c : ℝ) < -((mult : ℝ) * σ) :=
              (pow_lt_pow_iff_left₀ (by linarith) (by linarith) two_ne_zero).mp
                hneg
            linarith
      · intro h
        by_cases hmc : m < c
        · exact Or.inl hmc
        · right
          push_neg at hmc
          have hmcR : (c : ℝ) ≤ (m : ℝ) := by exact_mod_cast hmc
          have hlt : (m : ℝ) - (c : ℝ) < -((mult : ℝ) * σ) := by linarith
          have hsq : ((m : ℝ) - (c : ℝ)) ^ 2 < (-((mult : ℝ) * σ)) ^ 2 :=
            (pow_lt_pow_iff_left₀ (by linarith) (by linarith) two_ne_zero).mpr
              hlt
          have : ((m : ℝ) - (c : ℝ)) ^ 2 < ((mult : ℝ)) ^ 2 * (v : ℝ) := by
            rw [neg_pow, mul_pow, hσsq] at hsq
            simpa using hsq
          exact_mod_cast this

/-- `isBurst` is decidable: the square root is eliminated by `exceedsThr`. -/
instance isBurst.instDecidable (xs : List ℚ) (w i : ℕ) (mult : ℚ) :
    Decidable (isBurst xs w i mult) :=
  decidable_of_iff
    (fullWin xs.length w i ∧
      exceedsThr (xs.getD i 0) (rollMean xs w i) mult (rollVar xs w i) = true)
    (by
      unfold isBurst
      constructor
      · rintro ⟨h1, h2⟩
        exact ⟨h1, (exceedsThr_iff _ _ _ _ (rollVar_nonneg xs w i)).mp h2⟩
      · rintro ⟨h1, h2⟩
        exact ⟨h1, (exceedsThr_iff _ _ _ _ (rollVar_nonneg xs w i)).mpr h2⟩)

/-- Unfolding lemma used to evaluate `isBurst` on concrete data without
touching real square roots. -/
theorem isBurst_iff_exceeds (xs : List ℚ) (w i : ℕ) (mult : ℚ) :
    isBurst xs w i mult ↔
      (fullWin xs.length w i ∧
        exceedsThr (xs.getD i 0) (rollMean xs w i) mult
          (rollVar xs w i) = true) := by
  constructor
  · rintro ⟨h1, h2⟩
    exact ⟨h1, (exceedsThr_iff _ _ _ _ (rollVar_nonneg xs w i)).mpr h2⟩
  · rintro ⟨h1, h2⟩
    exact ⟨h1, (exceedsThr_iff _ _ _ _ (rollVar_nonneg xs w i)).mp h2⟩

/-!
## `detect_bursts_in_timeline` (`src/tabs/burstiness.py`, lines 325-381)
-/

/-- A row of the timeline dataframe: one `(period, category, count)` bucket. -/
structure Row where
  period : ℤ
  category : String
  count : ℚ
deriving DecidableEq

instance : Inhabited Row := ⟨⟨0, "", 0⟩⟩

/-- A flagged Burst Point as built by `detect_bursts_in_timeline`.  The float
fields `rolling_mean` (stored as `baseline`) and `rolling_std` are represented
exactly: `winVar` is the rolling sample variance, so the code's `rolling_std`
is `Real.sqrt winVar` and the float `intensity` field is the derived
`Burst.intensity` below.  `duration` is the literal `1` the code stores. -/
structure Burst where
  category : String
  period : ℤ
  count : ℚ
  baseline : ℚ
  winVar : ℚ
  duration : ℕ
deriving DecidableEq

/-- The code's `intensity = (count - rolling_mean) / (rolling_std + 1)`. -/
noncomputable def Burst.intensity (b : Burst) : ℝ :=
  ((b.count - b.baseline : ℚ) : ℝ) / (Real.sqrt ((b.winVar : ℚ) : ℝ) + 1)

/-- Comparison used to sort rows by `period` (`sort_values('period')`;
periods are unique per category, so stability is irrelevant). -/
def periodLe (a b : Row) : Prop := a.period ≤ b.period

instance : DecidableRel periodLe := fun a b =>
  inferInstanceAs (Decidable (a.period ≤ b.period))

/-- Positions flagged by the rolling-statistics test (the `is_burst` column
restricted to `True` rows). -/
def detectFlags (counts : List ℚ) (w : ℕ) (mult : ℚ) : List ℕ :=
  (List.range counts.length).filter (fun i => decide (isBurst counts w i mult))

/-- The Burst Point record built for flagged index `i` of the sorted
per-category data. -/
def mkBurst (c : String) (sorted : List Row) (counts : List ℚ) (i : ℕ) :
    Burst :=
  ⟨c, (sorted.getD i default).period, counts.getD i 0, rollMean counts 3 i,
    rollVar counts 3 i, 1⟩

/-- Per-category loop body of `detect_bursts_in_timeline`: sort the category's
rows by period, skip the category when fewer than 3 points remain, compute
centered rolling statistics with window 3 and emit one Burst Point per flagged
row.  No zero-filling of missing periods is performed. -/
def catBursts (rows : List Row) (c : String) (mult : ℚ) : List Burst :=
  let sorted := List.insertionSort periodLe
    (rows.filter (fun r => decide (r.category = c)))
  if sorted.length < 3 then []
  else
    let counts := sorted.map Row.count
    (detectFlags counts 3 mult).map (mkBurst c sorted counts)

/-- `Series.unique()`: category labels in order of first appearance. -/
def firstUniques : List String → List String
  | [] => []
  | c :: rest => c :: firstUniques (rest.filter (fun d => decide (d ≠ c)))
termination_by l => l.length
decreasing_by
  simp only [List.length_cons]
  exact Nat.lt_succ_of_le (List.length_filter_le _ _)

/-- All Burst Points, category by category in first-appearance order, before
the final intensity sort. -/
def collectBursts (rows : List Row) (mult : ℚ) : List Burst :=
  ((firstUniques (rows.map Row.category)).map
    (fun c => catBursts rows c mult)).flatten

/-- Sort key of `bursts.sort(key=..., reverse=True)`: descending intensity. -/
def intLe (a b : Burst) : Prop := b.intensity ≤ a.intensity

noncomputable instance : DecidableRel intLe := fun _ _ => Classical.dec _

instance : IsTotal Burst intLe := ⟨fun a b => le_total b.intensity a.intensity⟩

instance : IsTrans Burst intLe := ⟨fun _ _ _ h1 h2 => le_trans h2 h1⟩

/-- Python's stable `sort(key=lambda x: x['intensity'], reverse=True)`. -/
noncomputable def rankDesc (l : List Burst) : List Burst :=
  List.insertionSort intLe l

/-- `detect_bursts_in_timeline(timeline_df, sensitivity)`.  The body sits in a
blanket `try/except` returning `[]`; the only reachable exception on
well-typed input is the `ZeroDivisionError` of `2.0 / sensitivity` at
`sensitivity = 0`, hence the first branch. -/
noncomputable def detect_bursts_in_timeline (rows : List Row) (s : ℚ) :
    List Burst :=
  if s = 0 then [] else rankDesc (collectBursts rows (2 / s))

/-!
## `src/utils/burst_detection.py`
-/

/-- `calculate_burst_strength`: the composite
`max(0, (max/mean - 1) * (1 + std/mean))` score.  For a singleton list Python
produces `std = NaN`, `strength = NaN` and `max(0.0, NaN) = 0.0`; here
`sampleVar [x] = 0/0 = 0` gives the same value `0`, since
`(x/x - 1) * (1 + 0) = 0`. -/
noncomputable def burstStrength (l : List ℚ) : ℝ :=
  if l = [] then 0
  else if listMean l = 0 then 0
  else
    max 0 ((((listMax l : ℚ) : ℝ) / ((listMean l : ℚ) : ℝ) - 1) *
      (1 + (if 0 < listMean l
        then Real.sqrt ((sampleVar l : ℚ) : ℝ) / ((listMean l : ℚ) : ℝ)
        else 0)))

/-- The burst dict built by `detect_bursts` for one group of consecutive
flagged indices.  `vals` carries `burst_values` (= `data.iloc[group]`); the
float `intensity` field of the dict is the derived `KEpisode.intensity`. -/
structure KEpisode where
  start_time : ℤ
  end_time : ℤ
  duration : ℕ
  peak_value : ℚ
  total_excess : ℚ
  baseline : ℚ
  vals : List ℚ
deriving DecidableEq

/-- `intensity = calculate_burst_strength(burst_values)`. -/
noncomputable def KEpisode.intensity (e : KEpisode) : ℝ := burstStrength e.vals

/-- The boolean `burst_mask` column: one entry per position. -/
def burstMask (xs : List ℚ) (w : ℕ) (mult : ℚ) : List Bool :=
  (List.range xs.length).map (fun i => decide (isBurst xs w i mult))

/-- The grouping loop of `detect_bursts`: walk `burst_mask` with the position
counter `i`, extend `current_group` while the mask holds, flush it into
`burst_groups` on a `False`, and flush the final group after the loop. -/
def runsFrom : ℕ → List Bool → List ℕ → List (List ℕ)
  | _, [], cur => if cur = [] then [] else [cur]
  | i, b :: rest, cur =>
      if b then runsFrom (i + 1) rest (cur ++ [i])
      else (if cur = [] then [] else [cur]) ++ runsFrom (i + 1) rest []

/-- `burst_groups`: maximal runs of consecutive flagged positions. -/
def groupRuns (mask : List Bool) : List (List ℕ) := runsFrom 0 mask []

/-- The burst dict for one group `g` of flagged positions.  All positions in a
group are flagged, hence have full windows, so `rolling_mean.iloc[group]` has
no `NaN` and the code's `fillna` fallbacks never fire. -/
def mkEpisode (series : List (ℤ × ℚ)) (w : ℕ) (g : List ℕ) : KEpisode :=
  ⟨(series.getD (g.headD 0) (0, 0)).1,
    (series.getD (g.getLastD 0) (0, 0)).1,
    g.length,
    listMax (g.map (fun i => (series.map Prod.snd).getD i 0)),
    (g.map (fun i => (series.map Prod.snd).getD i 0)).sum -
      (g.map (fun i => rollMean (series.map Prod.snd) w i)).sum,
    listMean (g.map (fun i => rollMean (series.map Prod.snd) w i)),
    g.map (fun i => (series.map Prod.snd).getD i 0)⟩

/-- Sort key of the episode sort: descending intensity, stable. -/
def kintLe (a b : KEpisode) : Prop := b.intensity ≤ a.intensity

noncomputable instance : DecidableRel kintLe := fun _ _ => Classical.dec _

instance : IsTotal KEpisode kintLe :=
  ⟨fun a b => le_total b.intensity a.intensity⟩

instance : IsTrans KEpisode kintLe := ⟨fun _ _ _ h1 h2 => le_trans h2 h1⟩

/-- `detect_bursts(data, sensitivity)` of `burst_detection.py`: series shorter
than 5 return `[]` before the `try`; `sensitivity = 0` raises
`ZeroDivisionError` inside it (caught, `[]`); otherwise rolling statistics
with window `max(3, len // 10)`, threshold multiplier `2 / sensitivity`,
grouping of consecutive flagged positions, one episode per group, sorted by
descending intensity. -/
noncomputable def detect_bursts (series : List (ℤ × ℚ)) (sensitivity : ℚ) :
    List KEpisode :=
  if series.length < 5 then []
  else if sensitivity = 0 then []
  else
    List.insertionSort kintLe
      ((groupRuns (burstMask (series.map Prod.snd) (max 3 (series.length / 10))
        (2 / sensitivity))).map
        (mkEpisode series (max 3 (series.length / 10))))

/-- `detect_kleinberg_bursts(data, s, gamma)`: delegates to `detect_bursts`
with `sensitivity = 1.0 / s`; `gamma` is never read.  At `s = 0` the division
`1.0 / s` raises an uncaught `ZeroDivisionError`, modelled as `none`. -/
noncomputable def detect_kleinberg_bursts (series : List (ℤ × ℚ))
    (s gamma : ℚ) : Option (List KEpisode) :=
  if s = 0 then none else some (detect_bursts series (1 / s))

/-- Population mean over reals, `np.mean`. -/
noncomputable def listMeanR (l : List ℝ) : ℝ := l.sum / (l.length : ℝ)

/-- Population variance, the square of `np.std` (`ddof = 0`). -/
noncomputable def popVar (l : List ℝ) : ℝ :=
  (l.map (fun x => (x - listMeanR l) ^ 2)).sum / (l.length : ℝ)

/-- `np.max` over reals (`0` on the empty list, unused there). -/
noncomputable def listMaxR : List ℝ → ℝ
  | [] => 0
  | x :: xs => xs.foldl max x

/-- `np.min` over reals (`0` on the empty list, unused there). -/
noncomputable def listMinR : List ℝ → ℝ
  | [] => 0
  | x :: xs => xs.foldl min x

/-- `calculate_burst_statistics(bursts)`: the summary dict, modelled as an
association list from statistic name to (real-valued) statistic.  On empty
input the code returns only the four zero entries; otherwise eight entries.
No operation inside the `try` can raise on well-typed nonempty input, so the
`except` fallback `{'total_bursts': 0}` is unreachable. -/
noncomputable def calculate_burst_statistics (bursts : List KEpisode) :
    List (String × ℝ) :=
  if bursts = [] then
    [("total_bursts", 0), ("average_duration", 0), ("average_intensity", 0),
      ("total_burst_time", 0)]
  else
    [("total_bursts", (bursts.length : ℝ)),
      ("average_duration", listMeanR (bursts.map (fun b => (b.duration : ℝ)))),
      ("average_intensity", listMeanR (bursts.map KEpisode.intensity)),
      ("total_burst_time", (bursts.map (fun b => (b.duration : ℝ))).sum),
      ("max_intensity", listMaxR (bursts.map KEpisode.intensity)),
      ("min_intensity", listMinR (bursts.map KEpisode.intensity)),
      ("std_duration",
        Real.sqrt (popVar (bursts.map (fun b => (b.duration : ℝ))))),
      ("std_intensity", Real.sqrt (popVar (bursts.map KEpisode.intensity)))]

/-- `validate_burst_parameters(data, sensitivity)`: returns a
`(is_valid, error_message)` pair and never raises.  The `data.isna().all()`
branch is unrepresentable here because counts are modelled as (non-null)
rationals; it sits between the sensitivity checks and the negativity check in
the source and is the only omitted branch. -/
def validate_burst_parameters (data : List ℚ) (sensitivity : ℚ) :
    Bool × String :=
  if data.length < 3 then
    (false, "Insufficient data points for burst detection (minimum 3 required)")
  else if sensitivity ≤ 0 then (false, "Sensitivity must be positive")
  else if 10 < sensitivity then (false, "Sensitivity too high (maximum 10)")
  else if data.any (fun x => decide (x < 0)) then
    (false, "Negative values not supported in burst detection")
  else (true, "")

/-!
## Specification-side definitions

These formalise what the specification *claims*, for comparison with the
embedded code; they are written from the spec's words, not from the source.
-/

/-- The centered window of spec §4.2 step 4, shrunk at each boundary to the
positions that exist: positions `i - (w-1)/2 … i + w/2` intersected with the
series' range. -/
def shrunkWindow (xs : List ℚ) (w i : ℕ) : List ℚ :=
  (xs.drop (i - (w - 1) / 2)).take (i + w / 2 + 1 - (i - (w - 1) / 2))

/-- The flagging rule as the specification states it (spec §4.2 steps 4-7 and
claim C1): rolling statistics over the centered window *shrunk* to the
available positions at the boundary, with a rolling std over fewer than 2
points treated as `0`, and a bucket flagged iff its count strictly exceeds
`mean + mult * std`. -/
def claimBurst (xs : List ℚ) (w i : ℕ) (mult : ℚ) : Prop :=
  i < xs.length ∧
    ((listMean (shrunkWindow xs w i) : ℝ) +
        (mult : ℝ) *
          (if (shrunkWindow xs w i).length < 2 then 0
            else Real.sqrt ((sampleVar (shrunkWindow xs w i) : ℚ) : ℝ))
      < ((xs.getD i 0 : ℚ) : ℝ))

/-- The ranking order claim C7 asserts: descending intensity, ties broken by
period ascending and then category lexical order. -/
def specTieLe (a b : Burst) : Prop :=
  b.intensity < a.intensity ∨
    (a.intensity = b.intensity ∧
      (a.period < b.period ∨ (a.period = b.period ∧ a.category ≤ b.category)))

/-- `mask` has a maximal run of `true` entries of length `n` starting at
position `a`: every position of the run is `true`, the position after the run
is `false` (or past the end), and the position before it is `false` (or the
run starts at `0`). -/
def RunSpec (mask : List Bool) (a n : ℕ) : Prop :=
  0 < n ∧ a + n ≤ mask.length ∧ (∀ k, k < n → mask.getD (a + k) false = true) ∧
    mask.getD (a + n) false = false ∧
    (a = 0 ∨ mask.getD (a - 1) false = false)

instance (mask : List Bool) (a n : ℕ) : Decidable (RunSpec mask a n) := by
  unfold RunSpec
  infer_instance

/-- The list `[a, a+1, …, a+n-1]`. -/
def runList (a n : ℕ) : List ℕ := (List.range n).map (a + ·)

/-!
## Evaluation helpers
-/

@[simp] theorem decide_isBurst (xs : List ℚ) (w i : ℕ) (mult : ℚ) :
    decide (isBurst xs w i mult) =
      (decide (fullWin xs.length w i) &&
        exceedsThr (xs.getD i 0) (rollMean xs w i) mult (rollVar xs w i)) := by
  rw [decide_eq_decide.mpr (isBurst_iff_exceeds xs w i mult), Bool.decide_and]
  simp

theorem rankDesc_nil : rankDesc [] = [] := rfl

theorem rankDesc_singleton (b : Burst) : rankDesc [b] = [b] := by
  simp [rankDesc, List.insertionSort, List.orderedInsert]

theorem rankDesc_sorted (l : List Burst) : List.Sorted intLe (rankDesc l) :=
  List.sorted_insertionSort intLe l

theorem rankDesc_perm (l : List Burst) : (rankDesc l).Perm l :=
  List.perm_insertionSort intLe l

/-!
## Claim C10
-/

/-- C10 (confirmed): for every time series, every nonzero state-transition
cost `s` and every `gamma`, `detect_kleinberg_bursts(data, s, gamma)` returns
exactly `detect_bursts(data, sensitivity = 1.0/s)`, and `gamma` has no effect
on the output.  (At `s = 0` both the delegating call and the expression
`detect_bursts(data, 1.0/s)` raise the same uncaught `ZeroDivisionError`.) -/
theorem kleinberg_delegates (series : List (ℤ × ℚ)) (s g1 g2 : ℚ)
    (hs : s ≠ 0) :
    detect_kleinberg_bursts series s g1 = some (detect_bursts series (1 / s)) ∧
      detect_kleinberg_bursts series s g1 =
        detect_kleinberg_bursts series s g2 := by
  refine ⟨?_, ?_⟩ <;> simp [detect_kleinberg_bursts, if_neg hs]

/-- Witness for C10: concrete delegation at `s = 2`, `gamma ∈ {5, 7}`. -/
theorem kleinberg_delegates_witness :
    detect_kleinberg_bursts [(0, 1), (1, 2)] 2 5 =
        some (detect_bursts [(0, 1), (1, 2)] (1 / 2)) ∧
      detect_kleinberg_bursts [(0, 1), (1, 2)] 2 5 =
        detect_kleinberg_bursts [(0, 1), (1, 2)] 2 7 :=
  kleinberg_delegates [(0, 1), (1, 2)] 2 5 7 (by norm_num)

/-!
## Claim C9
-/

/-- C9 (counterexample): on the empty burst list, the summary does not
contain the other described statistics at all, rather than containing them
with value 0 — `max_intensity` is absent from `summarize([])`. -/
theorem burst_statistics_empty_missing_key :
    List.lookup "max_intensity" (calculate_burst_statistics []) = none := by
  simp [calculate_burst_statistics, List.lookup]

/-- C9 (amended): `calculate_burst_statistics([])` raises no exception and
returns exactly the four statistics `total_bursts`, `average_duration`,
`average_intensity` and `total_burst_time`, each equal to 0 (not NaN or
null); the remaining described statistics (`max_intensity`, `min_intensity`,
`std_duration`, `std_intensity`) are omitted from the empty-input result. -/
theorem burst_statistics_empty :
    calculate_burst_statistics [] =
      [("total_bursts", 0), ("average_duration", 0), ("average_intensity", 0),
        ("total_burst_time", 0)] := by
  simp [calculate_burst_statistics]

/-!
## Claim C5
-/

/-- C5 (counterexample): a burst-detection invocation with invalid
sensitivity `-1` (which `validate_burst_parameters` marks invalid) is not
rejected at the detector's entry point: `detect_bursts_in_timeline` neither
raises nor returns an error, it runs the detection and here even returns a
flagged Burst Point. -/
theorem invalid_sensitivity_not_rejected :
    (validate_burst_parameters [4, 5, 4] (-1)).1 = false ∧
      detect_bursts_in_timeline [⟨0, "x", 4⟩, ⟨1, "x", 5⟩, ⟨2, "x", 4⟩] (-1) =
        [⟨"x", 1, 5, 13 / 3, 1 / 3, 1⟩] := by
  constructor
  · norm_num [validate_burst_parameters]
  · rw [detect_bursts_in_timeline, if_neg (by norm_num)]
    norm_num [collectBursts, firstUniques, catBursts, List.filter, periodLe,
      detectFlags, List.range_succ, fullWin, exceedsThr, rollMean, rollVar,
      window, listMean, sampleVar, mkBurst, rankDesc_singleton]

/-- C5 (amended): `validate_burst_parameters` flags exactly the documented
invalid inputs — fewer than 3 points, sensitivity ≤ 0 or > 10, or a negative
count — but it only returns `(False, message)`; the detector entry points
never call it and never raise, as the counterexample shows. -/
theorem validate_rejects_iff (data : List ℚ) (s : ℚ) :
    (validate_burst_parameters data s).1 = false ↔
      (data.length < 3 ∨ s ≤ 0 ∨ 10 < s ∨ ∃ x ∈ data, x < 0) := by
  unfold validate_burst_parameters
  split_ifs with h1 h2 h3 h4
  · simp [h1]
  · simp [h2]
  · simp [h3]
  · simp only [List.any_eq_true, decide_eq_true_eq] at h4
    simp [h4]
  · simp only [List.any_eq_true, decide_eq_true_eq] at h4
    simp only [Bool.true_eq_false, false_iff]
    push_neg
    exact ⟨by omega, not_le.mp h2, not_lt.mp h3,
      fun x hx => not_lt.mp fun hlt => h4 ⟨x, hx, hlt⟩⟩

/-!
## Claim C1
-/

/-- C1 (counterexample): on the series `[9, 0, 0]` with window 3 and
sensitivity 4 (multiplier `1/2`), the rule as the claim states it flags
bucket 0 — its shrunk window `[9, 0]` has mean `9/2` and sample std
`sqrt(81/2) ≈ 6.36`, so the threshold `≈ 7.68` is exceeded by `9` — but the
code never flags bucket 0: its full centered window is out of range, pandas
leaves `NaN` rolling statistics there, and the `NaN` comparison is `False`. -/
theorem boundary_bucket_flag_mismatch :
    claimBurst [9, 0, 0] 3 0 (2 / 4) ∧ ¬ isBurst [9, 0, 0] 3 0 (2 / 4) := by
  constructor
  · have hw : shrunkWindow [9, 0, 0] 3 0 = [9, 0] := by
      norm_num [shrunkWindow]
    refine ⟨by norm_num, ?_⟩
    rw [hw]
    have hmean : listMean [9, 0] = 9 / 2 := by norm_num [listMean]
    have hvar : sampleVar [9, 0] = 81 / 2 := by
      norm_num [sampleVar, listMean]
    rw [hmean, hvar]
    norm_num
    have h := (exceedsThr_iff 9 (9 / 2) (2 / 4) (81 / 2) (by norm_num)).mp
      (by norm_num [exceedsThr])
    push_cast at h ⊢
    convert h using 2
    norm_num
  · rw [isBurst_iff_exceeds]
    norm_num [fullWin]

/-- C1 (amended): for every series, window size and sensitivity `s > 0`, the
detector flags bucket `i` iff the centered window at `i` lies fully in range
and `count[i] > rolling_mean[i] + (2/s) * rolling_std[i]` — equivalently
`count[i] > mean` and `(count[i] - mean)² > (2/s)² * var`.  Buckets whose
centered window is not fully in range (fewer than `window` points, where the
rolling statistics, including the std, are undefined `NaN`) are never
flagged, rather than being flagged whenever the count exceeds the mean. -/
theorem burst_flag_iff (xs : List ℚ) (w i : ℕ) (s : ℚ) (hs : 0 < s) :
    isBurst xs w i (2 / s) ↔
      (fullWin xs.length w i ∧ rollMean xs w i < xs.getD i 0 ∧
        (2 / s) ^ 2 * rollVar xs w i <
          (xs.getD i 0 - rollMean xs w i) ^ 2) := by
  rw [isBurst_iff_exceeds]
  have hm : (0 : ℚ) ≤ 2 / s := by positivity
  rw [exceedsThr, if_pos hm, decide_eq_true_eq]

/-- Witness for C1: the interior bucket of `[0, 9, 0]` at sensitivity 2. -/
theorem burst_flag_iff_witness : isBurst [0, 9, 0] 3 1 (2 / 2) :=
  (burst_flag_iff [0, 9, 0] 3 1 2 (by norm_num)).mpr
    (by norm_num [fullWin, rollMean, rollVar, window, listMean, sampleVar])

/-!
## Claim C4
-/

/-- Flagging is antitone in the threshold multiplier: lowering a nonnegative
multiplier can only add flags. -/
theorem isBurst_mono (xs : List ℚ) (w i : ℕ) {m1 m2 : ℚ} (_h2 : 0 ≤ m2)
    (h21 : m2 ≤ m1) (hb : isBurst xs w i m1) : isBurst xs w i m2 := by
  obtain ⟨hwin, hlt⟩ := hb
  refine ⟨hwin, lt_of_le_of_lt ?_ hlt⟩
  have hσ : (0 : ℝ) ≤ Real.sqrt ((rollVar xs w i : ℚ) : ℝ) :=
    Real.sqrt_nonneg _
  have : ((m2 : ℚ) : ℝ) ≤ ((m1 : ℚ) : ℝ) := by exact_mod_cast h21
  nlinarith

/-- C4 (confirmed): for a fixed series and window and valid sensitivities
`s1 < s2`, every point flagged at `s1` is flagged at `s2`: the flagged index
list at `s1` is a sublist (hence subset, hence no longer) of the one at `s2`,
and every Burst Point reported by `detect_bursts_in_timeline` at `s1` is also
reported at `s2`. -/
theorem sensitivity_monotone (counts : List ℚ) (w : ℕ) (rows : List Row)
    (s1 s2 : ℚ) (h1 : 0 < s1) (h12 : s1 < s2) (_h10 : s2 ≤ 10) :
    (detectFlags counts w (2 / s1)).Sublist (detectFlags counts w (2 / s2)) ∧
      ∀ b ∈ detect_bursts_in_timeline rows s1,
        b ∈ detect_bursts_in_timeline rows s2 := by
  have hs2 : 0 < s2 := h1.trans h12
  have hm2 : (0 : ℚ) ≤ 2 / s2 := by positivity
  have hm21 : 2 / s2 ≤ 2 / s1 :=
    le_of_lt (div_lt_div_of_pos_left (by norm_num) h1 h12)
  have hflag : ∀ xs : List ℚ, ∀ j : ℕ,
      isBurst xs w j (2 / s1) → isBurst xs w j (2 / s2) :=
    fun xs j h => isBurst_mono xs w j hm2 hm21 h
  constructor
  · apply List.monotone_filter_right
    intro a ha
    rw [decide_eq_true_eq] at ha ⊢
    exact hflag counts a ha
  · intro b hb
    rw [detect_bursts_in_timeline, if_neg h1.ne'] at hb
    rw [detect_bursts_in_timeline, if_neg hs2.ne']
    rw [(rankDesc_perm _).mem_iff] at hb
    rw [(rankDesc_perm _).mem_iff]
    rw [collectBursts, List.mem_flatten] at hb ⊢
    obtain ⟨l, hl, hbl⟩ := hb
    rw [List.mem_map] at hl
    obtain ⟨c, hc, rfl⟩ := hl
    refine ⟨catBursts rows c (2 / s2), List.mem_map.mpr ⟨c, hc, rfl⟩, ?_⟩
    rw [catBursts] at hbl ⊢
    by_cases hlen :
        (List.insertionSort periodLe
          (rows.filter (fun r => decide (r.category = c)))).length < 3
    · rw [if_pos hlen] at hbl
      simp at hbl
    · rw [if_neg hlen] at hbl ⊢
      rw [List.mem_map] at hbl ⊢
      obtain ⟨i, hi, rfl⟩ := hbl
      refine ⟨i, ?_, rfl⟩
      rw [detectFlags, List.mem_filter] at hi ⊢
      refine ⟨hi.1, ?_⟩
      have h3 := hi.2
      rw [decide_eq_true_eq] at h3 ⊢
      exact isBurst_mono _ 3 i hm2 hm21 h3

/-- Witness for C4: with series `[0, 9, 0]`, the spike flagged at
sensitivity 1 is also flagged at sensitivity 2. -/
theorem sensitivity_monotone_witness :
    (detectFlags [0, 9, 0] 3 (2 / 1)).Sublist
        (detectFlags [0, 9, 0] 3 (2 / 2)) ∧
      ∀ b ∈ detect_bursts_in_timeline [⟨0, "x", 0⟩, ⟨1, "x", 9⟩, ⟨2, "x", 0⟩] 1,
        b ∈ detect_bursts_in_timeline [⟨0, "x", 0⟩, ⟨1, "x", 9⟩, ⟨2, "x", 0⟩] 2 :=
  sensitivity_monotone [0, 9, 0] 3
    [⟨0, "x", 0⟩, ⟨1, "x", 9⟩, ⟨2, "x", 0⟩] 1 2 (by norm_num) (by norm_num)
    (by norm_num)

/-!
## Claim C3
-/

/-- With window 3, a series shorter than 3 has no fully-in-range centered
window, hence no flags. -/
theorem detectFlags_short (cs : List ℚ) (mult : ℚ) (h : cs.length < 3) :
    detectFlags cs 3 mult = [] := by
  rw [detectFlags, List.filter_eq_nil_iff]
  intro i _
  rw [Bool.not_eq_true, decide_eq_false_iff_not]
  rintro ⟨⟨hw1, hw2⟩, -⟩
  simp only [Nat.reduceDiv] at hw1 hw2
  omega

set_option maxHeartbeats 1600000 in
/-- C3 (counterexample): the same category series once with the gap at
period 1 omitted and once with it explicitly zero-filled.  At sensitivity 2
the omitted-gap input produces no Burst Point (the spike's window is
`[8, 9, 0]`), while the zero-filled input flags period 2 (window `[0, 9, 0]`):
the code does not zero-fill, so the two inputs are not equivalent. -/
theorem gap_zero_fill_mismatch :
    detect_bursts_in_timeline [⟨0, "x", 8⟩, ⟨2, "x", 9⟩, ⟨3, "x", 0⟩] 2 =
        [] ∧
      detect_bursts_in_timeline
          [⟨0, "x", 8⟩, ⟨1, "x", 0⟩, ⟨2, "x", 9⟩, ⟨3, "x", 0⟩] 2 =
        [⟨"x", 2, 9, 3, 27, 1⟩] := by
  constructor <;>
  · rw [detect_bursts_in_timeline, if_neg (by norm_num)]
    norm_num [collectBursts, firstUniques, catBursts, List.filter, periodLe,
      detectFlags, List.range_succ, fullWin, exceedsThr, rollMean, rollVar,
      window, listMean, sampleVar, mkBurst, rankDesc_singleton, rankDesc_nil]

/-- C3 (amended): `detect_bursts_in_timeline` performs no zero-filling.  For
a single-category input with strictly increasing periods, detection is purely
positional on the observed buckets: the output is exactly one Burst Point per
`detectFlags` position of the raw count list, with the period merely copied
from the corresponding row — missing buckets are never reconstructed, so an
implicit gap and an explicit zero-filled gap are not interchangeable. -/
theorem no_zero_fill (c : String) (ps : List ℤ) (cs : List ℚ) (mult : ℚ)
    (hlen : ps.length = cs.length) (hsort : ps.Pairwise (· < ·)) :
    catBursts ((ps.zip cs).map (fun pc => ⟨pc.1, c, pc.2⟩)) c mult =
      (detectFlags cs 3 mult).map (fun i =>
        ⟨c, ps.getD i 0, cs.getD i 0, rollMean cs 3 i, rollVar cs 3 i, 1⟩) := by
  set rows : List Row := (ps.zip cs).map (fun pc => ⟨pc.1, c, pc.2⟩) with hrows
  have hfilter : rows.filter (fun r => decide (r.category = c)) = rows := by
    rw [List.filter_eq_self]
    intro r hr
    rw [hrows, List.mem_map] at hr
    obtain ⟨pc, -, rfl⟩ := hr
    simp
  have hperiod : rows.map Row.period = ps := by
    rw [hrows, List.map_map]
    have : (Row.period ∘ fun pc : ℤ × ℚ => (⟨pc.1, c, pc.2⟩ : Row)) =
        Prod.fst := rfl
    rw [this, List.map_fst_zip]
    omega
  have hcount : rows.map Row.count = cs := by
    rw [hrows, List.map_map]
    have : (Row.count ∘ fun pc : ℤ × ℚ => (⟨pc.1, c, pc.2⟩ : Row)) =
        Prod.snd := rfl
    rw [this, List.map_snd_zip]
    omega
  have hsorted : List.Sorted periodLe rows := by
    rw [hrows]
    rw [List.Sorted, List.pairwise_map]
    have h1 : List.Pairwise (fun x y : ℤ × ℚ => x.1 < y.1) (ps.zip cs) := by
      have h2 : List.Pairwise (· < ·) ((ps.zip cs).map Prod.fst) := by
        rw [List.map_fst_zip ps cs (by omega)]
        exact hsort
      rw [List.pairwise_map] at h2
      exact h2
    exact h1.imp (fun hab => le_of_lt hab)
  have hlrows : rows.length = cs.length := by
    rw [hrows, List.length_map, List.length_zip]
    omega
  rw [catBursts, hfilter, List.Sorted.insertionSort_eq hsorted]
  by_cases h3 : rows.length < 3
  · rw [if_pos h3, detectFlags_short cs mult (by omega), List.map_nil]
  · rw [if_neg h3, hcount]
    apply List.map_congr_left
    intro i hi
    have hilt : i < cs.length := by
      have := (List.mem_filter.mp hi).1
      rw [List.mem_range] at this
      exact this
    rw [mkBurst]
    have hp : (rows.getD i default).period = ps.getD i 0 := by
      have hd : (default : Row).period = 0 := rfl
      calc (rows.getD i default).period
          = (rows.map Row.period).getD i ((default : Row).period) := by
            rw [List.getD_map]
        _ = ps.getD i 0 := by rw [hperiod, hd]
    rw [hp]

/-- Witness for C3's amended theorem: a gapped single-category series. -/
theorem no_zero_fill_witness :
    catBursts (([(0 : ℤ), 2, 3].zip [(8 : ℚ), 9, 0]).map
        (fun pc => ⟨pc.1, "x", pc.2⟩)) "x" 1 =
      (detectFlags [(8 : ℚ), 9, 0] 3 1).map (fun i =>
        ⟨"x", [(0 : ℤ), 2, 3].getD i 0, [(8 : ℚ), 9, 0].getD i 0,
          rollMean [(8 : ℚ), 9, 0] 3 i, rollVar [(8 : ℚ), 9, 0] 3 i, 1⟩) :=
  no_zero_fill "x" [0, 2, 3] [8, 9, 0] 1 (by norm_num)
    (by norm_num [List.pairwise_cons])

/-!
## Claim C7
-/

set_option maxHeartbeats 2000000 in
/-- C7 (counterexample): two categories with identical series, category `"b"`
appearing first in the dataframe with its flag at period 5, category `"a"`
second with its flag at period 1.  The two Burst Points tie on intensity; the
code keeps them in collection order (`"b"` at period 5 first), whereas the
claimed tie-break by period ascending would put `"a"`'s period-1 point first:
the output is not sorted by the claimed order. -/
theorem rank_tiebreak_mismatch :
    detect_bursts_in_timeline
        [⟨4, "b", 0⟩, ⟨5, "b", 9⟩, ⟨6, "b", 0⟩,
          ⟨0, "a", 0⟩, ⟨1, "a", 9⟩, ⟨2, "a", 0⟩] 2 =
        [⟨"b", 5, 9, 3, 27, 1⟩, ⟨"a", 1, 9, 3, 27, 1⟩] ∧
      ¬ List.Sorted specTieLe
        (detect_bursts_in_timeline
          [⟨4, "b", 0⟩, ⟨5, "b", 9⟩, ⟨6, "b", 0⟩,
            ⟨0, "a", 0⟩, ⟨1, "a", 9⟩, ⟨2, "a", 0⟩] 2) := by
  have hint : Burst.intensity ⟨"a", 1, 9, 3, 27, 1⟩ =
      Burst.intensity ⟨"b", 5, 9, 3, 27, 1⟩ := rfl
  have hmain : detect_bursts_in_timeline
      [⟨4, "b", 0⟩, ⟨5, "b", 9⟩, ⟨6, "b", 0⟩,
        ⟨0, "a", 0⟩, ⟨1, "a", 9⟩, ⟨2, "a", 0⟩] 2 =
      [⟨"b", 5, 9, 3, 27, 1⟩, ⟨"a", 1, 9, 3, 27, 1⟩] := by
    rw [detect_bursts_in_timeline, if_neg (by norm_num)]
    have hcollect : collectBursts
        [⟨4, "b", 0⟩, ⟨5, "b", 9⟩, ⟨6, "b", 0⟩,
          ⟨0, "a", 0⟩, ⟨1, "a", 9⟩, ⟨2, "a", 0⟩] (2 / 2) =
        [⟨"b", 5, 9, 3, 27, 1⟩, ⟨"a", 1, 9, 3, 27, 1⟩] := by
      have hab : (decide (("a" : String) = "b")) = false := by rfl
      have hba : (decide (("b" : String) = "a")) = false := by rfl
      have hne1 : (decide (("a" : String) ≠ "b")) = true := by rfl
      have hne2 : (decide (("b" : String) ≠ "a")) = true := by rfl
      norm_num [collectBursts, firstUniques, catBursts, List.filter, periodLe,
        detectFlags, List.range_succ, fullWin, exceedsThr, rollMean, rollVar,
        window, listMean, sampleVar, mkBurst, hab, hba, hne1, hne2]
    rw [hcollect, rankDesc]
    apply List.Sorted.insertionSort_eq
    simp only [List.sorted_cons, List.mem_singleton, List.sorted_singleton,
      and_true, forall_eq]
    exact ⟨le_of_eq hint, by simp, List.sorted_nil⟩
  refine ⟨hmain, ?_⟩
  rw [hmain]
  intro hsorted
  rw [List.sorted_cons] at hsorted
  obtain ⟨hBA, -⟩ := hsorted
  have h := hBA _ (List.mem_singleton.mpr rfl)
  rw [specTieLe] at h
  rcases h with h1 | ⟨-, h2⟩
  · rw [hint] at h1
    exact lt_irrefl _ h1
  · rcases h2 with h5 | ⟨h5, -⟩ <;> simp at h5

/-- C7 (amended): the ranking step stably sorts the collected Burst Points in
descending order of intensity: the output is a permutation of the collected
flagged points, is pairwise non-increasing in intensity, and any two points
whose collection order already agrees with the descending-intensity order (in
particular any two tied points, in collection order: category
first-appearance, then period ascending) keep their relative order.  Ties are
NOT re-broken by period or category. -/
theorem rank_sorted_desc (rows : List Row) (s : ℚ) (a b : Burst)
    (hs : s ≠ 0) :
    List.Sorted intLe (detect_bursts_in_timeline rows s) ∧
      (detect_bursts_in_timeline rows s).Perm (collectBursts rows (2 / s)) ∧
      (intLe a b → [a, b].Sublist (collectBursts rows (2 / s)) →
        [a, b].Sublist (detect_bursts_in_timeline rows s)) := by
  rw [detect_bursts_in_timeline, if_neg hs]
  exact ⟨rankDesc_sorted _, rankDesc_perm _,
    fun hab hsub => List.pair_sublist_insertionSort hab hsub⟩

/-- Witness for C7's amended theorem at a concrete single-category input. -/
theorem rank_sorted_desc_witness :
    List.Sorted intLe
        (detect_bursts_in_timeline [⟨0, "x", 0⟩, ⟨1, "x", 9⟩, ⟨2, "x", 0⟩] 2) ∧
      (detect_bursts_in_timeline
          [⟨0, "x", 0⟩, ⟨1, "x", 9⟩, ⟨2, "x", 0⟩] 2).Perm
        (collectBursts [⟨0, "x", 0⟩, ⟨1, "x", 9⟩, ⟨2, "x", 0⟩] (2 / 2)) ∧
      (intLe ⟨"x", 1, 9, 3, 27, 1⟩ ⟨"x", 1, 9, 3, 27, 1⟩ →
        [⟨"x", 1, 9, 3, 27, 1⟩, ⟨"x", 1, 9, 3, 27, 1⟩].Sublist
          (collectBursts [⟨0, "x", 0⟩, ⟨1, "x", 9⟩, ⟨2, "x", 0⟩] (2 / 2)) →
        [⟨"x", 1, 9, 3, 27, 1⟩, ⟨"x", 1, 9, 3, 27, 1⟩].Sublist
          (detect_bursts_in_timeline
            [⟨0, "x", 0⟩, ⟨1, "x", 9⟩, ⟨2, "x", 0⟩] 2)) :=
  rank_sorted_desc [⟨0, "x", 0⟩, ⟨1, "x", 9⟩, ⟨2, "x", 0⟩] 2
    ⟨"x", 1, 9, 3, 27, 1⟩ ⟨"x", 1, 9, 3, 27, 1⟩ (by norm_num)

/-!
## Claim C8
-/

/-- Every element of `firstUniques l` occurs in `l`. -/
theorem firstUniques_subset (l : List String) : firstUniques l ⊆ l := by
  induction l using firstUniques.induct with
  | case1 => simp [firstUniques]
  | case2 c rest ih =>
      intro x hx
      rw [firstUniques] at hx
      rcases List.mem_cons.mp hx with h1 | h2
      · exact h1 ▸ List.mem_cons_self _ _
      · exact List.mem_cons_of_mem _ (List.mem_of_mem_filter (ih h2))

/-- Removing one label commutes with taking first occurrences. -/
theorem firstUniques_filter (c : String) (l : List String) :
    firstUniques (l.filter (fun d => decide (d ≠ c))) =
      (firstUniques l).filter (fun d => decide (d ≠ c)) := by
  induction l using firstUniques.induct with
  | case1 => simp [firstUniques]
  | case2 d rest ih =>
      by_cases hdc : d = c
      · subst hdc
        rw [List.filter_cons_of_neg (by simp), firstUniques,
          List.filter_cons_of_neg (by simp)]
        rw [List.filter_filter] at ih
        rw [show (fun a => decide (a ≠ d) && decide (a ≠ d)) =
            (fun a => decide (a ≠ d)) from funext (fun a => Bool.and_self _)]
            at ih
        exact ih
      · rw [List.filter_cons_of_pos (by simp [hdc]), firstUniques, firstUniques,
          List.filter_cons_of_pos (by simp [hdc])]
        have hcomm : (rest.filter (fun a => decide (a ≠ c))).filter
            (fun a => decide (a ≠ d)) =
            (rest.filter (fun a => decide (a ≠ d))).filter
              (fun a => decide (a ≠ c)) := by
          rw [List.filter_filter, List.filter_filter]
          congr 1
          exact funext (fun a => Bool.and_comm _ _)
        rw [hcomm, ih]

/-- A category whose (unsorted) data has fewer than 3 rows yields no Burst
Points. -/
theorem catBursts_short (rows : List Row) (c : String) (mult : ℚ)
    (h : (rows.filter (fun r => decide (r.category = c))).length < 3) :
    catBursts rows c mult = [] := by
  rw [catBursts, if_pos]
  rw [List.length_insertionSort]
  exact h

/-- Rows of other categories are invisible to a category's detection. -/
theorem catBursts_filter_ne (rows : List Row) (c c2 : String) (mult : ℚ)
    (hne : c2 ≠ c) :
    catBursts (rows.filter (fun r => decide (r.category ≠ c))) c2 mult =
      catBursts rows c2 mult := by
  rw [catBursts, catBursts, List.filter_filter]
  have : (fun r : Row => decide (r.category = c2) && decide (r.category ≠ c)) =
      (fun r : Row => decide (r.category = c2)) := by
    funext r
    by_cases h : r.category = c2
    · simp [h, hne]
    · simp [h]
  rw [this]

/-- Every Burst Point built by `catBursts` carries that category label. -/
theorem catBursts_category {rows : List Row} {c : String} {mult : ℚ}
    {b : Burst} (h : b ∈ catBursts rows c mult) : b.category = c := by
  rw [catBursts] at h
  split_ifs at h with h3
  · simp at h
  · rw [List.mem_map] at h
    obtain ⟨i, -, rfl⟩ := h
    rfl

/-- C8 (amended): a category with fewer than 3 buckets is skipped while every
other category is still processed — removing its rows leaves the output
unchanged, and no Burst Point carries its label.  (There is, however, no
per-category data validation: the counterexample shows a negative-count
category, which `validate_burst_parameters` would reject, being processed and
even producing a Burst Point.) -/
theorem short_category_skipped (rows : List Row) (s : ℚ) (c : String)
    (hs : s ≠ 0)
    (hshort : (rows.filter (fun r => decide (r.category = c))).length < 3) :
    detect_bursts_in_timeline
        (rows.filter (fun r => decide (r.category ≠ c))) s =
      detect_bursts_in_timeline rows s ∧
      ∀ b ∈ detect_bursts_in_timeline rows s, b.category ≠ c := by
  have hmapcat : (rows.filter (fun r => decide (r.category ≠ c))).map
      Row.category = (rows.map Row.category).filter (fun d => decide (d ≠ c)) := by
    rw [List.map_filter]
    rfl
  have key : ∀ cats : List String,
      ((cats.filter (fun d => decide (d ≠ c))).map
        (fun c2 => catBursts (rows.filter (fun r => decide (r.category ≠ c)))
          c2 (2 / s))).flatten =
      (cats.map (fun c2 => catBursts rows c2 (2 / s))).flatten := by
    intro cats
    induction cats with
    | nil => rfl
    | cons d rest ih =>
        by_cases hdc : d = c
        · subst hdc
          rw [List.filter_cons_of_neg (by simp), List.map_cons,
            List.flatten_cons, catBursts_short rows d (2 / s) hshort,
            List.nil_append]
          exact ih
        · rw [List.filter_cons_of_pos (by simp [hdc]), List.map_cons,
            List.map_cons, List.flatten_cons, List.flatten_cons,
            catBursts_filter_ne rows c d (2 / s) hdc, ih]
  have hcollect : collectBursts
      (rows.filter (fun r => decide (r.category ≠ c))) (2 / s) =
      collectBursts rows (2 / s) := by
    rw [collectBursts, collectBursts, hmapcat, firstUniques_filter]
    exact key _
  constructor
  · rw [detect_bursts_in_timeline, detect_bursts_in_timeline, if_neg hs,
      if_neg hs, hcollect]
  · intro b hb
    rw [detect_bursts_in_timeline, if_neg hs] at hb
    rw [(rankDesc_perm _).mem_iff, collectBursts, List.mem_flatten] at hb
    obtain ⟨l, hl, hbl⟩ := hb
    rw [List.mem_map] at hl
    obtain ⟨c2, hc2, rfl⟩ := hl
    rw [catBursts_category hbl]
    intro hcc
    subst hcc
    rw [catBursts_short rows c2 (2 / s) hshort] at hbl
    simp at hbl

/-- Witness for C8's amended theorem: category `"y"` has only 2 buckets. -/
theorem short_category_skipped_witness :
    detect_bursts_in_timeline
        ([⟨0, "y", 1⟩, ⟨1, "y", 2⟩, ⟨0, "x", 5⟩].filter
          (fun r => decide (r.category ≠ "y"))) 2 =
      detect_bursts_in_timeline [⟨0, "y", 1⟩, ⟨1, "y", 2⟩, ⟨0, "x", 5⟩] 2 ∧
      ∀ b ∈ detect_bursts_in_timeline
        [⟨0, "y", 1⟩, ⟨1, "y", 2⟩, ⟨0, "x", 5⟩] 2, b.category ≠ "y" :=
  short_category_skipped [⟨0, "y", 1⟩, ⟨1, "y", 2⟩, ⟨0, "x", 5⟩] 2 "y"
    (by norm_num) (by decide)

/-- C8 (counterexample): a category whose data fails validation (negative
counts, rejected by `validate_burst_parameters`) is not skipped: at
sensitivity 2 the series `[-9, 9, -9]` is processed normally and produces a
Burst Point for that category. -/
theorem invalid_category_not_skipped :
    (validate_burst_parameters [-9, 9, -9] 2).1 = false ∧
      detect_bursts_in_timeline
          [⟨0, "neg", -9⟩, ⟨1, "neg", 9⟩, ⟨2, "neg", -9⟩] 2 =
        [⟨"neg", 1, 9, -3, 108, 1⟩] := by
  constructor
  · norm_num [validate_burst_parameters]
  · rw [detect_bursts_in_timeline, if_neg (by norm_num)]
    norm_num [collectBursts, firstUniques, catBursts, List.filter, periodLe,
      detectFlags, List.range_succ, fullWin, exceedsThr, rollMean, rollVar,
      window, listMean, sampleVar, mkBurst, rankDesc_singleton]

/-!
## Claim C2
-/

/-- C2 (counterexample): `detect_bursts` in `burst_detection.py` does not use
the `(count - mean) / (std + 1)` formula: on `[0, 0, 9, 0, 0]` at
sensitivity 2 it detects one single-point burst whose intensity, computed by
`calculate_burst_strength`, is `0`, while the claimed formula gives
`(9 - 3) / (sqrt 27 + 1) > 0` at that flagged point. -/
theorem intensity_formula_mismatch :
    detect_bursts [(0, 0), (1, 0), (2, 9), (3, 0), (4, 0)] 2 =
        [⟨2, 2, 1, 9, 6, 3, [9]⟩] ∧
      KEpisode.intensity ⟨2, 2, 1, 9, 6, 3, [9]⟩ = 0 ∧
      KEpisode.intensity ⟨2, 2, 1, 9, 6, 3, [9]⟩ ≠
        (((9 : ℚ) : ℝ) - ((3 : ℚ) : ℝ)) / (Real.sqrt ((27 : ℚ) : ℝ) + 1) := by
  have hzero : KEpisode.intensity ⟨2, 2, 1, 9, 6, 3, [9]⟩ = 0 := by
    rw [KEpisode.intensity, burstStrength]
    rw [if_neg (by simp), if_neg (by norm_num [listMean])]
    norm_num [listMax, listMean]
  refine ⟨?_, hzero, ?_⟩
  · rw [detect_bursts, if_neg (by norm_num), if_neg (by norm_num)]
    have hmask : burstMask
        ([((0 : ℤ), (0 : ℚ)), (1, 0), (2, 9), (3, 0), (4, 0)].map Prod.snd)
        (max 3 ([((0 : ℤ), (0 : ℚ)), (1, 0), (2, 9), (3, 0), (4, 0)].length
          / 10)) (2 / 2) = [false, false, true, false, false] := by
      norm_num [burstMask, List.range_succ, fullWin, exceedsThr, rollMean,
        rollVar, window, listMean, sampleVar]
    rw [hmask]
    have hruns : groupRuns [false, false, true, false, false] = [[2]] := by
      norm_num [groupRuns, runsFrom]
    rw [hruns]
    have hep : mkEpisode [((0 : ℤ), (0 : ℚ)), (1, 0), (2, 9), (3, 0), (4, 0)]
        (max 3 ([((0 : ℤ), (0 : ℚ)), (1, 0), (2, 9), (3, 0), (4, 0)].length
          / 10)) [2] = ⟨2, 2, 1, 9, 6, 3, [9]⟩ := by
      norm_num [mkEpisode, listMax, listMean, rollMean, rollVar, window,
        sampleVar]
    rw [List.map_cons, List.map_nil, hep]
    simp [List.insertionSort, List.orderedInsert]
  · rw [hzero]
    intro h
    have hpos : (0 : ℝ) <
        (((9 : ℚ) : ℝ) - ((3 : ℚ) : ℝ)) / (Real.sqrt ((27 : ℚ) : ℝ) + 1) := by
      apply div_pos (by norm_num)
      positivity
    rw [← h] at hpos
    exact lt_irrefl _ hpos

/-- C2 (amended): in `detect_bursts_in_timeline` every reported Burst Point's
intensity equals exactly `(count - rolling_mean) / (rolling_std + 1)` —
equivalently `intensity * (rolling_std + 1) = count - rolling_mean` — and is
strictly positive (a flagged point strictly exceeds its rolling mean).  The
formula is however not shared by every burst-detection implementation:
`detect_bursts` scores intensity with `calculate_burst_strength` instead, as
the counterexample shows. -/
theorem timeline_intensity_formula (rows : List Row) (s : ℚ) (b : Burst)
    (hs : 0 < s) (hb : b ∈ detect_bursts_in_timeline rows s) :
    b.intensity * (Real.sqrt ((b.winVar : ℚ) : ℝ) + 1) =
        ((b.count - b.baseline : ℚ) : ℝ) ∧
      0 < b.intensity := by
  rw [detect_bursts_in_timeline, if_neg hs.ne'] at hb
  rw [(rankDesc_perm _).mem_iff, collectBursts, List.mem_flatten] at hb
  obtain ⟨l, hl, hbl⟩ := hb
  rw [List.mem_map] at hl
  obtain ⟨c, -, rfl⟩ := hl
  rw [catBursts] at hbl
  split_ifs at hbl with h3
  · simp at hbl
  · rw [List.mem_map] at hbl
    obtain ⟨i, hi, rfl⟩ := hbl
    rw [detectFlags, List.mem_filter, decide_eq_true_eq] at hi
    obtain ⟨-, hburst⟩ := hi
    set counts := (List.insertionSort periodLe
      (rows.filter (fun r => decide (r.category = c)))).map Row.count
    have hden : (0 : ℝ) < Real.sqrt ((rollVar counts 3 i : ℚ) : ℝ) + 1 := by
      have := Real.sqrt_nonneg ((rollVar counts 3 i : ℚ) : ℝ)
      linarith
    have hnum : (0 : ℝ) <
        ((counts.getD i 0 - rollMean counts 3 i : ℚ) : ℝ) := by
      obtain ⟨-, hlt⟩ := hburst
      have hσ0 : (0 : ℝ) ≤ Real.sqrt ((rollVar counts 3 i : ℚ) : ℝ) :=
        Real.sqrt_nonneg _
      have hsR : (0 : ℝ) < (s : ℝ) := by exact_mod_cast hs
      have hm0 : (0 : ℝ) ≤ 2 / (s : ℝ) := by positivity
      push_cast
      push_cast at hlt
      nlinarith [mul_nonneg hm0 hσ0]
    constructor
    · simp only [mkBurst, Burst.intensity]
      exact div_mul_cancel₀ _ (ne_of_gt hden)
    · simp only [mkBurst, Burst.intensity]
      exact div_pos hnum hden

/-- Witness for C2's amended theorem at the flagged spike of `[0, 9, 0]`. -/
theorem timeline_intensity_formula_witness :
    Burst.intensity ⟨"x", 1, 9, 3, 27, 1⟩ *
        (Real.sqrt ((27 : ℚ) : ℝ) + 1) = (((9 : ℚ) - 3 : ℚ) : ℝ) ∧
      0 < Burst.intensity ⟨"x", 1, 9, 3, 27, 1⟩ := by
  have hdet : detect_bursts_in_timeline
      [⟨0, "x", 0⟩, ⟨1, "x", 9⟩, ⟨2, "x", 0⟩] 2 = [⟨"x", 1, 9, 3, 27, 1⟩] := by
    rw [detect_bursts_in_timeline, if_neg (by norm_num)]
    norm_num [collectBursts, firstUniques, catBursts, List.filter, periodLe,
      detectFlags, List.range_succ, fullWin, exceedsThr, rollMean, rollVar,
      window, listMean, sampleVar, mkBurst, rankDesc_singleton]
  exact timeline_intensity_formula
    [⟨0, "x", 0⟩, ⟨1, "x", 9⟩, ⟨2, "x", 0⟩] 2 ⟨"x", 1, 9, 3, 27, 1⟩
    (by norm_num) (by rw [hdet]; exact List.mem_singleton.mpr rfl)

/-!
## Claim C6
-/

theorem runList_length (a n : ℕ) : (runList a n).length = n := by
  simp [runList]

theorem runList_eq_nil_iff (a n : ℕ) : runList a n = [] ↔ n = 0 := by
  simp [runList, List.range_eq_nil]

theorem runList_append_one (a n : ℕ) :
    runList a n ++ [a + n] = runList a (n + 1) := by
  rw [runList, runList, List.range_succ, List.map_append]
  rfl

/-- A `true` at position `j` of a mask puts `j` in range. -/
theorem getD_true_lt {l : List Bool} {j : ℕ} (h : l.getD j false = true) :
    j < l.length := by
  by_contra hc
  push_neg at hc
  rw [List.getD_eq_default _ _ hc] at h
  exact Bool.false_ne_true h

theorem getD_cons_shift (x : Bool) (l : List Bool) (j : ℕ) (hj : 0 < j) :
    (x :: l).getD j false = l.getD (j - 1) false := by
  obtain ⟨j2, rfl⟩ : ∃ j2, j = j2 + 1 := ⟨j - 1, by omega⟩
  simp [List.getD_cons_succ]

/-- Characterisation of the grouping scan, generalised over the pending
group `runList a n` (the indices `a … a+n-1` already accumulated) at loop
counter `a + n`: a group is emitted either by extending the pending group
with the leading `true` entries of the remaining mask, or as a later run
lying entirely inside the remaining mask and preceded by a `false`. -/
theorem mem_runsFrom (rest : List Bool) :
    ∀ (a n : ℕ) (g : List ℕ),
      (g ∈ runsFrom (a + n) rest (runList a n) ↔
        ((∃ t, 0 < n + t ∧ (∀ k, k < t → rest.getD k false = true) ∧
            rest.getD t false = false ∧ g = runList a (n + t)) ∨
          (∃ b m, 0 < b ∧ 0 < m ∧
            (∀ k, k < m → rest.getD (b + k) false = true) ∧
            rest.getD (b + m) false = false ∧
            rest.getD (b - 1) false = false ∧
            g = runList (a + n + b) m))) := by
  induction rest with
  | nil =>
      intro a n g
      rw [runsFrom]
      constructor
      · intro hg
        by_cases hn : n = 0
        · rw [if_pos (by simp [runList_eq_nil_iff, hn])] at hg
          simp at hg
        · rw [if_neg (by simp [runList_eq_nil_iff, hn])] at hg
          rw [List.mem_singleton] at hg
          left
          refine ⟨0, by omega, fun k hk => absurd hk (by omega),
            List.getD_nil, by simpa using hg⟩
      · rintro (⟨t, ht0, htk, -, rfl⟩ | ⟨b, m, -, hm, hmk, -, -, rfl⟩)
        · have ht : t = 0 := by
            by_contra h
            have := htk 0 (by omega)
            simp at this
          subst ht
          have hn : n ≠ 0 := by omega
          rw [if_neg (by simp [runList_eq_nil_iff, hn])]
          simp
        · exfalso
          have := hmk 0 hm
          simp at this
  | cons hd tl ih =>
      intro a n g
      cases hd
      · -- leading entry of the remaining mask is `false`: flush the group
        have heq : runsFrom (a + n) (false :: tl) (runList a n) =
            (if runList a n = [] then [] else [runList a n]) ++
              runsFrom (a + n + 1) tl [] := rfl
        rw [heq, List.mem_append]
        have hrec := ih (a + n + 1) 0 g
        rw [show runList (a + n + 1) 0 = [] from rfl, Nat.add_zero] at hrec
        have hflush : g ∈ (if runList a n = [] then []
            else [runList a n]) ↔ (0 < n ∧ g = runList a n) := by
          by_cases hn : n = 0
          · rw [if_pos (by simp [runList_eq_nil_iff, hn])]
            simp [hn]
          · rw [if_neg (by simp [runList_eq_nil_iff, hn])]
            rw [List.mem_singleton]
            constructor
            · exact fun h => ⟨by omega, h⟩
            · exact fun h => h.2
        rw [hflush, hrec]
        constructor
        · rintro (⟨hn, rfl⟩ | (⟨t, ht0, htk, htf, rfl⟩ |
            ⟨b, m, hb, hm, hmk, hmf, hbl, rfl⟩))
          · left
            refine ⟨0, by omega, fun k hk => absurd hk (by omega),
              List.getD_cons_zero, by rw [Nat.add_zero]⟩
          · right
            refine ⟨1, t, by omega, by omega, fun k hk => ?_, ?_, ?_, ?_⟩
            · rw [show 1 + k = k + 1 from by omega, List.getD_cons_succ]
              exact htk k hk
            · rw [show 1 + t = t + 1 from by omega, List.getD_cons_succ]
              exact htf
            · exact List.getD_cons_zero
            · rw [show a + n + 1 = a + n + 1 + 0 from by omega] at *
              congr 1
              omega
          · right
            refine ⟨b + 1, m, by omega, hm, fun k hk => ?_, ?_, ?_, ?_⟩
            · rw [show b + 1 + k = (b + k) + 1 from by omega,
                List.getD_cons_succ]
              exact hmk k hk
            · rw [show b + 1 + m = (b + m) + 1 from by omega,
                List.getD_cons_succ]
              exact hmf
            · rw [getD_cons_shift _ _ _ (by omega)]
              simpa using hbl
            · congr 1
              omega
        · rintro (⟨t, ht0, htk, htf, rfl⟩ |
            ⟨b, m, hb, hm, hmk, hmf, hbl, rfl⟩)
          · have ht : t = 0 := by
              by_contra h
              have := htk 0 (by omega)
              simp at this
            subst ht
            left
            exact ⟨by omega, by rw [Nat.add_zero]⟩
          · rcases Nat.lt_or_ge b 2 with hb2 | hb2
            · have hb1 : b = 1 := by omega
              subst hb1
              right
              left
              refine ⟨m, by omega, fun k hk => ?_, ?_, ?_⟩
              · have := hmk k hk
                rw [show 1 + k = k + 1 from by omega,
                  List.getD_cons_succ] at this
                exact this
              · have := hmf
                rw [show 1 + m = m + 1 from by omega,
                  List.getD_cons_succ] at this
                exact this
              · congr 1
                omega
            · right
              right
              refine ⟨b - 1, m, by omega, hm, fun k hk => ?_, ?_, ?_, ?_⟩
              · have := hmk k hk
                rw [show b + k = (b - 1 + k) + 1 from by omega,
                  List.getD_cons_succ] at this
                exact this
              · have := hmf
                rw [show b + m = (b - 1 + m) + 1 from by omega,
                  List.getD_cons_succ] at this
                exact this
              · have := hbl
                rw [getD_cons_shift _ _ _ (by omega)] at this
                rw [show b - 1 - 1 = b - 2 from by omega] at this
                rw [show b - 1 - 1 = b - 2 from by omega]
                exact this
              · congr 1
                omega
      · -- leading entry is `true`: extend the pending group
        have heq : runsFrom (a + n) (true :: tl) (runList a n) =
            runsFrom (a + n + 1) tl (runList a n ++ [a + n]) := rfl
        rw [heq, runList_append_one,
          show a + n + 1 = a + (n + 1) from by omega, ih a (n + 1) g]
        constructor
        · rintro (⟨t, ht0, htk, htf, rfl⟩ |
            ⟨b, m, hb, hm, hmk, hmf, hbl, rfl⟩)
          · left
            refine ⟨t + 1, by omega, fun k hk => ?_, ?_, ?_⟩
            · rcases Nat.eq_zero_or_pos k with rfl | hk0
              · exact List.getD_cons_zero
              · rw [getD_cons_shift _ _ _ hk0]
                exact htk (k - 1) (by omega)
            · rw [List.getD_cons_succ]
              exact htf
            · congr 1
              omega
          · right
            refine ⟨b + 1, m, by omega, hm, fun k hk => ?_, ?_, ?_, ?_⟩
            · rw [show b + 1 + k = (b + k) + 1 from by omega,
                List.getD_cons_succ]
              exact hmk k hk
            · rw [show b + 1 + m = (b + m) + 1 from by omega,
                List.getD_cons_succ]
              exact hmf
            · rw [getD_cons_shift _ _ _ (by omega)]
              simpa using hbl
            · congr 1
              omega
        · rintro (⟨t, ht0, htk, htf, rfl⟩ |
            ⟨b, m, hb, hm, hmk, hmf, hbl, rfl⟩)
          · have ht1 : t ≠ 0 := by
              intro h
              subst h
              rw [List.getD_cons_zero] at htf
              exact absurd htf (by simp)
            obtain ⟨t2, rfl⟩ : ∃ t2, t = t2 + 1 := ⟨t - 1, by omega⟩
            left
            refine ⟨t2, by omega, fun k hk => ?_, ?_, ?_⟩
            · have := htk (k + 1) (by omega)
              rw [List.getD_cons_succ] at this
              exact this
            · rw [List.getD_cons_succ] at htf
              exact htf
            · congr 1
              omega
          · have hb2 : 2 ≤ b := by
              by_contra h
              have hb1 : b = 1 := by omega
              subst hb1
              rw [show (1 : ℕ) - 1 = 0 from rfl, List.getD_cons_zero] at hbl
              exact absurd hbl (by simp)
            obtain ⟨b2, rfl⟩ : ∃ b2, b = b2 + 1 := ⟨b - 1, by omega⟩
            right
            refine ⟨b2, m, by omega, hm, fun k hk => ?_, ?_, ?_, ?_⟩
            · have := hmk k hk
              rw [show b2 + 1 + k = (b2 + k) + 1 from by omega,
                List.getD_cons_succ] at this
              exact this
            · have := hmf
              rw [show b2 + 1 + m = (b2 + m) + 1 from by omega,
                List.getD_cons_succ] at this
              exact this
            · have := hbl
              rw [getD_cons_shift _ _ _ (by omega)] at this
              rw [show b2 + 1 - 1 - 1 = b2 - 1 from by omega] at this
              exact this
            · congr 1
              omega

/-- The groups produced by the grouping loop are exactly the maximal runs of
`true` entries of the mask, each rendered as its list of positions. -/
theorem mem_groupRuns (mask : List Bool) (g : List ℕ) :
    g ∈ groupRuns mask ↔ ∃ a n, RunSpec mask a n ∧ g = runList a n := by
  have h := mem_runsFrom mask 0 0 g
  rw [show runList 0 0 = [] from rfl, Nat.add_zero] at h
  rw [groupRuns, h]
  constructor
  · rintro (⟨t, ht0, htk, htf, rfl⟩ | ⟨b, m, hb, hm, hmk, hmf, hbl, rfl⟩)
    · have hlen : 0 + t ≤ mask.length := by
        have := getD_true_lt (htk (t - 1) (by omega))
        omega
      refine ⟨0, t, ⟨by omega, hlen, fun k hk => ?_, ?_, Or.inl rfl⟩, ?_⟩
      · rw [Nat.zero_add]
        exact htk k hk
      · rw [Nat.zero_add]
        exact htf
      · rw [Nat.zero_add]
    · have hlen : b + m ≤ mask.length := by
        have := getD_true_lt (hmk (m - 1) (by omega))
        omega
      exact ⟨b, m, ⟨hm, hlen, hmk, hmf, Or.inr hbl⟩, by rw [Nat.zero_add]⟩
  · rintro ⟨a, n, ⟨hn, hlen, hk, hf, hor⟩, rfl⟩
    by_cases ha : a = 0
    · subst ha
      left
      refine ⟨n, by omega, fun k hk2 => ?_, ?_, by rw [Nat.zero_add]⟩
      · have := hk k hk2
        rwa [Nat.zero_add] at this
      · have := hf
        rwa [Nat.zero_add] at this
    · rcases hor with h0 | hprev
      · exact absurd h0 ha
      · right
        exact ⟨a, n, by omega, hn, hk, hf, hprev,
          by rw [Nat.zero_add]⟩

/-- C6 (amended): the episode-grouping implementation `detect_bursts` merges
each maximal run of index-consecutive flagged positions into exactly one
episode whose duration equals the number of flagged points of that run: an
episode belongs to the output precisely when it is built from such a maximal
run.  (The timeline implementation, by contrast, performs no grouping at
all — see the counterexample.) -/
theorem episodes_are_maximal_runs (series : List (ℤ × ℚ)) (s : ℚ)
    (e : KEpisode) (h5 : 5 ≤ series.length) (hs : s ≠ 0) :
    e ∈ detect_bursts series s ↔
      ∃ a n, RunSpec (burstMask (series.map Prod.snd)
          (max 3 (series.length / 10)) (2 / s)) a n ∧
        e = mkEpisode series (max 3 (series.length / 10)) (runList a n) ∧
        e.duration = n := by
  rw [detect_bursts, if_neg (by omega), if_neg hs]
  rw [(List.perm_insertionSort kintLe _).mem_iff, List.mem_map]
  constructor
  · rintro ⟨g, hg, rfl⟩
    rw [mem_groupRuns] at hg
    obtain ⟨a, n, hrun, rfl⟩ := hg
    exact ⟨a, n, hrun, rfl, runList_length a n⟩
  · rintro ⟨a, n, hrun, rfl, -⟩
    exact ⟨runList a n, (mem_groupRuns _ _).mpr ⟨a, n, hrun, rfl⟩, rfl⟩

/-- Witness for C6's amended theorem: in `[0, 8, 12, 13, 0]` at
sensitivity 10 the three consecutive flagged positions 1, 2, 3 form one
maximal run, giving exactly one episode of duration 3. -/
theorem episodes_are_maximal_runs_witness :
    mkEpisode [((0 : ℤ), (0 : ℚ)), (1, 8), (2, 12), (3, 13), (4, 0)]
        (max 3 ([((0 : ℤ), (0 : ℚ)), (1, 8), (2, 12), (3, 13), (4, 0)].length
          / 10)) (runList 1 3) ∈
      detect_bursts [((0 : ℤ), (0 : ℚ)), (1, 8), (2, 12), (3, 13), (4, 0)]
        10 := by
  apply (episodes_are_maximal_runs
    [((0 : ℤ), (0 : ℚ)), (1, 8), (2, 12), (3, 13), (4, 0)] 10
    (mkEpisode [((0 : ℤ), (0 : ℚ)), (1, 8), (2, 12), (3, 13), (4, 0)]
      (max 3 ([((0 : ℤ), (0 : ℚ)), (1, 8), (2, 12), (3, 13), (4, 0)].length
        / 10)) (runList 1 3))
    (by norm_num) (by norm_num)).mpr
  refine ⟨1, 3, ?_, rfl, runList_length 1 3⟩
  have hmask : burstMask
      ([((0 : ℤ), (0 : ℚ)), (1, 8), (2, 12), (3, 13), (4, 0)].map Prod.snd)
      (max 3 ([((0 : ℤ), (0 : ℚ)), (1, 8), (2, 12), (3, 13), (4, 0)].length
        / 10)) (2 / 10) = [false, true, true, true, false] := by
    norm_num [burstMask, List.range_succ, fullWin, exceedsThr, rollMean,
      rollVar, window, listMean, sampleVar]
  rw [hmask]
  decide

/-- Every Burst Point of the timeline detector carries the literal
duration 1. -/
theorem collectBursts_duration {rows : List Row} {mult : ℚ} {b : Burst}
    (hb : b ∈ collectBursts rows mult) : b.duration = 1 := by
  rw [collectBursts, List.mem_flatten] at hb
  obtain ⟨l, hl, hbl⟩ := hb
  rw [List.mem_map] at hl
  obtain ⟨c, -, rfl⟩ := hl
  rw [catBursts] at hbl
  split_ifs at hbl
  · simp at hbl
  · rw [List.mem_map] at hbl
    obtain ⟨i, -, rfl⟩ := hbl
    rfl

set_option maxHeartbeats 1600000 in
/-- C6 (counterexample): `detect_bursts_in_timeline`, one of the two cited
burst detectors, performs no episode grouping: on a series whose three
consecutive periods 1, 2, 3 are all flagged (counts `[0, 8, 12, 13, 0]`,
sensitivity 10) it returns three Burst Points each of duration 1, not one
episode of duration 3. -/
theorem timeline_no_episode_merge :
    (detect_bursts_in_timeline
        [⟨0, "x", 0⟩, ⟨1, "x", 8⟩, ⟨2, "x", 12⟩, ⟨3, "x", 13⟩, ⟨4, "x", 0⟩]
        10).map Burst.duration = [1, 1, 1] := by
  rw [detect_bursts_in_timeline, if_neg (by norm_num)]
  have hlen : (rankDesc (collectBursts
      [⟨0, "x", 0⟩, ⟨1, "x", 8⟩, ⟨2, "x", 12⟩, ⟨3, "x", 13⟩, ⟨4, "x", 0⟩]
      (2 / 10))).length = 3 := by
    rw [rankDesc, List.length_insertionSort]
    norm_num [collectBursts, firstUniques, catBursts, List.filter, periodLe,
      detectFlags, List.range_succ, fullWin, exceedsThr, rollMean, rollVar,
      window, listMean, sampleVar, mkBurst]
  have hdur : ∀ b ∈ rankDesc (collectBursts
      [⟨0, "x", 0⟩, ⟨1, "x", 8⟩, ⟨2, "x", 12⟩, ⟨3, "x", 13⟩, ⟨4, "x", 0⟩]
      (2 / 10)), b.duration = 1 :=
    fun b hb => collectBursts_duration ((rankDesc_perm _).mem_iff.mp hb)
  obtain ⟨x, y, z, hxyz⟩ := List.length_eq_three.mp hlen
  rw [hxyz]
  simp only [List.map_cons, List.map_nil]
  rw [hdur x (by rw [hxyz]; simp), hdur y (by rw [hxyz]; simp),
    hdur z (by rw [hxyz]; simp)]

end CogWar
